import Mathlib

/-!
Verification of the hybrid-encryption core of the pqdemo application
(`app.js`): base64 transport encoding (`arrayToBase64` / `base64ToArray`,
i.e. `btoa` / `atob`), the ciphertext envelope (`packageCiphertext` /
`unpackageCiphertext`), and the composed `encryptMessage` /
`decryptMessage` operations.  The external McEliece KEM and the WebCrypto
AES-GCM cipher are opaque collaborators; they are modelled as explicit
function parameters (a `Primitives` record) whose contracts appear as
hypotheses of the composition theorems.  Bytes are `Nat` values `< 256`,
byte buffers are `List Nat`, and JavaScript's 32-bit signed arithmetic,
out-of-bounds reads and `slice` clamping are modelled explicitly.
-/

/-! ## JavaScript numeric and array semantics -/

/-- JavaScript `ToInt32`: reduce an integer modulo 2^32 into
the signed range `[-2^31, 2^31)`. -/
def jsToInt32 (n : Int) : Int :=
  let m := n.emod 4294967296
  if m < 2147483648 then m else m - 4294967296

/-- Clamp a (possibly negative) `slice` index to `[0, len]`, following
ECMAScript: negative indices count from the end. -/
def jsClampIndex (len : Nat) (i : Int) : Nat :=
  if i < 0 then ((len : Int) + i).toNat else min i.toNat len

/-- Model of `TypedArray.prototype.slice(s, e)` over a byte list: clamp both
indices and return the elements in between (empty when `e ≤ s`). -/
def jsSlice (l : List Nat) (s e : Int) : List Nat :=
  let a := jsClampIndex l.length s
  let b := jsClampIndex l.length e
  (l.drop a).take (b - a)

/-- One-argument `slice(s)`: the end index defaults to the length. -/
def jsSliceFrom (l : List Nat) (s : Int) : List Nat :=
  jsSlice l s (l.length : Int)

/-- Model of `TypedArray.prototype.set(src, off)` over byte lists: overwrite
`src.length` entries of `target` starting at `off` (defined when the
source fits, which holds at every call site in `packageCiphertext`). -/
def jsSetAt (target src : List Nat) (off : Nat) : List Nat :=
  target.take off ++ src ++ target.drop (off + src.length)

/-! ## Base64 (`btoa` / `atob`)

`arrayToBase64` maps each byte to a one-char binary string and calls
`btoa`; `base64ToArray` calls `atob` (WHATWG forgiving-base64 decode)
and reads the char codes back.  Since every byte of a `Uint8Array` is
below 256, the binary string is just the byte list, and the two source
functions are base64 encode/decode over byte lists. -/

/-- The base64 alphabet, in sextet order. -/
def b64Alphabet : List Char :=
  "ABCDEFGHIJKLMNOPQRSTUVWXYZabcdefghijklmnopqrstuvwxyz0123456789+/".data

/-- Character for a sextet value. -/
def sextetToChar (n : Nat) : Char := b64Alphabet.getD n 'A'

/-- Sextet value of a character; `none` when the character is not in
the base64 alphabet (the forgiving-base64 failure case). -/
def charToSextet (c : Char) : Option Nat := b64Alphabet.indexOf? c

/-- ASCII whitespace, which forgiving-base64 decode removes. -/
def isB64Space (c : Char) : Bool :=
  c = '\x09' ∨ c = '\x0a' ∨ c = '\x0c' ∨ c = '\x0d' ∨ c = ' '

/-- Remove one or two trailing `'='` (list given reversed). -/
def dropPadRev (l : List Char) : List Char :=
  match l with
  | x :: y :: r => if x = '=' then (if y = '=' then r else y :: r) else l
  | [x] => if x = '=' then [] else l
  | [] => []

/-- Forgiving-base64 step 2: when the length is a multiple of four,
remove up to two trailing padding characters. -/
def stripPad (t : List Char) : List Char :=
  if t.length % 4 = 0 then (dropPadRev t.reverse).reverse else t

/-- Map every character to its sextet; fail on the first character
outside the alphabet. -/
def toSextets : List Char → Option (List Nat)
  | [] => some []
  | c :: r =>
    match charToSextet c, toSextets r with
    | some n, some t => some (n :: t)
    | _, _ => none

/-- Reassemble bytes from sextets: each full group of four sextets gives
three bytes, a trailing group of two gives one byte and a trailing group
of three gives two (spare low bits are dropped, as forgiving-base64
does).  A single trailing sextet is a failure. -/
def sextetsToBytes : List Nat → Option (List Nat)
  | [] => some []
  | [_] => none
  | [a, b] => some [a * 4 + b / 16]
  | [a, b, c] => some [a * 4 + b / 16, b % 16 * 16 + c / 4]
  | a :: b :: c :: d :: rest =>
    (sextetsToBytes rest).map
      fun t => (a * 4 + b / 16) :: (b % 16 * 16 + c / 4) :: (c % 4 * 64 + d) :: t

/-- Model of `arrayToBase64` (app.js): base64-encode a byte list, `'='`-padded
to a multiple of four characters, with no line wrapping. -/
def arrayToBase64 : List Nat → List Char
  | [] => []
  | [a] => [sextetToChar (a / 4), sextetToChar (a % 4 * 16), '=', '=']
  | [a, b] =>
    [sextetToChar (a / 4), sextetToChar (a % 4 * 16 + b / 16),
     sextetToChar (b % 16 * 4), '=']
  | a :: b :: c :: rest =>
    sextetToChar (a / 4) :: sextetToChar (a % 4 * 16 + b / 16) ::
    sextetToChar (b % 16 * 4 + c / 64) :: sextetToChar (c % 64) ::
    arrayToBase64 rest

/-- The same encoding without the padding characters (what remains
after forgiving-base64 strips the padding). -/
def b64EncodeCore : List Nat → List Char
  | [] => []
  | [a] => [sextetToChar (a / 4), sextetToChar (a % 4 * 16)]
  | [a, b] =>
    [sextetToChar (a / 4), sextetToChar (a % 4 * 16 + b / 16),
     sextetToChar (b % 16 * 4)]
  | a :: b :: c :: rest =>
    sextetToChar (a / 4) :: sextetToChar (a % 4 * 16 + b / 16) ::
    sextetToChar (b % 16 * 4 + c / 64) :: sextetToChar (c % 64) ::
    b64EncodeCore rest

/-- The numeric sextet stream of a byte list. -/
def byteSextets : List Nat → List Nat
  | [] => []
  | [a] => [a / 4, a % 4 * 16]
  | [a, b] => [a / 4, a % 4 * 16 + b / 16, b % 16 * 4]
  | a :: b :: c :: rest =>
    a / 4 :: (a % 4 * 16 + b / 16) :: (b % 16 * 4 + c / 64) :: c % 64 ::
    byteSextets rest

/-- Model of `base64ToArray` (app.js): `atob`, the WHATWG forgiving-base64
decode; `none` models the thrown `InvalidCharacterError`. -/
def base64ToArray (s : List Char) : Option (List Nat) :=
  let t := s.filter fun c => !(isB64Space c)
  let u := stripPad t
  if u.length % 4 = 1 then none
  else
    match toSextets u with
    | none => none
    | some sx => sextetsToBytes sx

/-! ## UTF-8 (`TextEncoder` / `TextDecoder`)

`TextEncoder.encode` is the WHATWG UTF-8 encoder; `TextDecoder` is
constructed without `fatal`, so `decode` is the WHATWG UTF-8 decoder in
replacement mode: it never throws, and emits U+FFFD for every invalid
byte sequence. -/

/-- The replacement character U+FFFD. -/
def replChar : Char := Char.ofNat 0xFFFD

/-- UTF-8 encoding of one code point. -/
def utf8EncodeChar (c : Char) : List Nat :=
  let n := c.toNat
  if n < 0x80 then [n]
  else if n < 0x800 then [0xC0 + n / 64, 0x80 + n % 64]
  else if n < 0x10000 then
    [0xE0 + n / 4096, 0x80 + n / 64 % 64, 0x80 + n % 64]
  else
    [0xF0 + n / 262144, 0x80 + n / 4096 % 64, 0x80 + n / 64 % 64,
     0x80 + n % 64]

/-- Model of `TextEncoder.encode`: UTF-8 bytes of a string. -/
def utf8Encode (s : String) : List Nat :=
  s.data.foldr (fun c acc => utf8EncodeChar c ++ acc) []

/-- Lower bound for the second byte of a multi-byte sequence, per the
WHATWG UTF-8 decoder (rules out overlong forms). -/
def contLo (b : Nat) : Nat :=
  if b = 0xE0 then 0xA0 else if b = 0xF0 then 0x90 else 0x80

/-- Upper bound for the second byte of a multi-byte sequence, per the
WHATWG UTF-8 decoder (rules out surrogates and values above U+10FFFF). -/
def contHi (b : Nat) : Nat :=
  if b = 0xED then 0x9F else if b = 0xF4 then 0x8F else 0xBF

/-- WHATWG UTF-8 decode in replacement mode: total; an invalid byte
yields U+FFFD, and a byte that cannot continue the current sequence is
reprocessed as the start of a new one. -/
def utf8DecodeLossy : List Nat → List Char
  | [] => []
  | b :: rest =>
    if b < 0x80 then Char.ofNat b :: utf8DecodeLossy rest
    else if b < 0xC2 then replChar :: utf8DecodeLossy rest
    else if b < 0xE0 then
      match rest with
      | [] => [replChar]
      | c :: r2 =>
        if 0x80 ≤ c ∧ c ≤ 0xBF then
          Char.ofNat ((b - 0xC0) * 64 + (c - 0x80)) :: utf8DecodeLossy r2
        else replChar :: utf8DecodeLossy (c :: r2)
    else if b < 0xF0 then
      match rest with
      | [] => [replChar]
      | c :: r2 =>
        if contLo b ≤ c ∧ c ≤ contHi b then
          match r2 with
          | [] => [replChar]
          | d :: r3 =>
            if 0x80 ≤ d ∧ d ≤ 0xBF then
              Char.ofNat ((b - 0xE0) * 4096 + (c - 0x80) * 64 + (d - 0x80)) ::
                utf8DecodeLossy r3
            else replChar :: utf8DecodeLossy (d :: r3)
        else replChar :: utf8DecodeLossy (c :: r2)
    else if b < 0xF5 then
      match rest with
      | [] => [replChar]
      | c :: r2 =>
        if contLo b ≤ c ∧ c ≤ contHi b then
          match r2 with
          | [] => [replChar]
          | d :: r3 =>
            if 0x80 ≤ d ∧ d ≤ 0xBF then
              match r3 with
              | [] => [replChar]
              | e :: r4 =>
                if 0x80 ≤ e ∧ e ≤ 0xBF then
                  Char.ofNat ((b - 0xF0) * 262144 + (c - 0x80) * 4096 +
                      (d - 0x80) * 64 + (e - 0x80)) :: utf8DecodeLossy r4
                else replChar :: utf8DecodeLossy (e :: r4)
            else replChar :: utf8DecodeLossy (d :: r3)
        else replChar :: utf8DecodeLossy (c :: r2)
    else replChar :: utf8DecodeLossy rest

/-- Structural validity of a byte list as UTF-8, mirroring the decoder
branch for branch. -/
def validUtf8 : List Nat → Bool
  | [] => true
  | b :: rest =>
    if b < 0x80 then validUtf8 rest
    else if b < 0xC2 then false
    else if b < 0xE0 then
      match rest with
      | [] => false
      | c :: r2 => if 0x80 ≤ c ∧ c ≤ 0xBF then validUtf8 r2 else false
    else if b < 0xF0 then
      match rest with
      | [] => false
      | c :: r2 =>
        if contLo b ≤ c ∧ c ≤ contHi b then
          match r2 with
          | [] => false
          | d :: r3 => if 0x80 ≤ d ∧ d ≤ 0xBF then validUtf8 r3 else false
        else false
    else if b < 0xF5 then
      match rest with
      | [] => false
      | c :: r2 =>
        if contLo b ≤ c ∧ c ≤ contHi b then
          match r2 with
          | [] => false
          | d :: r3 =>
            if 0x80 ≤ d ∧ d ≤ 0xBF then
              match r3 with
              | [] => false
              | e :: r4 =>
                if 0x80 ≤ e ∧ e ≤ 0xBF then validUtf8 r4 else false
            else false
        else false
    else false

/-! ## The ciphertext envelope (`packageCiphertext` / `unpackageCiphertext`) -/

/-- The four length bytes written by `packageCiphertext`:
`(k >> 24) & 0xff, (k >> 16) & 0xff, (k >> 8) & 0xff, k & 0xff`.
JavaScript shifts operate on `ToInt32 k`, i.e. on `k mod 2^32`, and
masking the shifted value with `0xff` selects exactly the corresponding
big-endian byte of `k mod 2^32`. -/
def kemLengthBytes (k : Nat) : List Nat :=
  let m := k % 4294967296
  [m / 16777216 % 256, m / 65536 % 256, m / 256 % 256, m % 256]

/-- Body of `packageCiphertext` before the final base64 step: allocate
`4 + kemLength + 12 + |encryptedData|` zeroed bytes, write the length
bytes, then `set` the KEM ciphertext at 4, the IV at `4 + kemLength`
and the encrypted data at `4 + kemLength + 12`. -/
def packageBytes (kemCiphertext iv encryptedData : List Nat) : List Nat :=
  let kemLength := kemCiphertext.length
  let totalLength := 4 + kemLength + 12 + encryptedData.length
  let base := kemLengthBytes kemLength ++ List.replicate (totalLength - 4) 0
  jsSetAt (jsSetAt (jsSetAt base kemCiphertext 4) iv (4 + kemLength))
    encryptedData (4 + kemLength + 12)

/-- Model of `packageCiphertext` (app.js): combine the components and
base64-encode the result. -/
def packageCiphertext (kemCiphertext iv encryptedData : List Nat) : List Char :=
  arrayToBase64 (packageBytes kemCiphertext iv encryptedData)

/-- The KEM length field read by `unpackageCiphertext`:
`(b0 << 24) | (b1 << 16) | (b2 << 8) | b3`.  Out-of-range reads of a
`Uint8Array` give `undefined`, which the shifts coerce to 0, hence
`getD _ 0`.  For bytes below 256 the shifted operands occupy disjoint
bit ranges, so the 32-bit `or` is addition on the 32-bit pattern; the
result is the *signed* interpretation `jsToInt32` of that pattern. -/
def readKemLength (l : List Nat) : Int :=
  jsToInt32 ((l.getD 0 0 * 16777216 + l.getD 1 0 * 65536 +
    l.getD 2 0 * 256 + l.getD 3 0 : Nat))

/-- The three components extracted by `unpackageCiphertext`. -/
structure UnpackResult where
  kemCiphertext : List Nat
  iv : List Nat
  encryptedData : List Nat
deriving DecidableEq, Repr

/-- The slicing part of `unpackageCiphertext`: read the length field and
slice the three components, with JavaScript `slice` clamping; no length
validation is performed. -/
def unpackageBytes (combined : List Nat) : UnpackResult :=
  let kemLength := readKemLength combined
  { kemCiphertext := jsSlice combined 4 (4 + kemLength)
    iv := jsSlice combined (4 + kemLength) (4 + kemLength + 12)
    encryptedData := jsSliceFrom combined (4 + kemLength + 12) }

/-- Model of `unpackageCiphertext` (app.js): base64-decode, then slice.  `none`
is `atob` throwing on malformed base64; the slicing itself cannot fail. -/
def unpackageCiphertext (base64Package : List Char) : Option UnpackResult :=
  (base64ToArray base64Package).map unpackageBytes

/-! ## The hybrid pipeline (`encryptMessage` / `decryptMessage`)

The McEliece KEM and WebCrypto AES-GCM are external collaborators; one
`Primitives` value fixes their behaviour for one run (the randomness of
`mceliece.keyPair` and `mceliece.encrypt` is baked into the record, the
fresh `crypto.getRandomValues` IV draw is an explicit argument). -/

/-- Output of `mceliece.encrypt` (the library spells it `cyphertext`). -/
structure EncapsResult where
  cyphertext : List Nat
  secret : List Nat
deriving DecidableEq

/-- Output of `mceliece.keyPair`. -/
structure McElieceKeyPair where
  privateKey : List Nat
  publicKey : List Nat
deriving DecidableEq

/-- The external primitives, as deterministic functions for one run;
`Except Unit _` models a thrown library/WebCrypto exception. -/
structure Primitives where
  mcelieceKeyPair : McElieceKeyPair
  mcelieceEncrypt : List Nat → Except Unit EncapsResult
  mcelieceDecrypt : List Nat → List Nat → Except Unit (List Nat)
  aesGcmEncrypt : List Nat → List Nat → List Nat → Except Unit (List Nat)
  aesGcmDecrypt : List Nat → List Nat → List Nat → Except Unit (List Nat)

/-- The distinct kinds of exception that can escape `encryptMessage` /
`decryptMessage`: a base64 `InvalidCharacterError` from `atob`, a KEM
library error, or a WebCrypto `OperationError`. -/
inductive CryptoFailure where
  | invalidEncoding
  | kemFailure
  | aeadFailure
deriving DecidableEq, Repr

/-- Equality of `Except` results is decidable componentwise. -/
instance exceptDecEq {e a : Type} [DecidableEq e] [DecidableEq a] :
    DecidableEq (Except e a) := fun x y =>
  match x, y with
  | .error u, .error v =>
    if h : u = v then .isTrue (by rw [h]) else
      .isFalse (by intro hc; cases hc; exact h rfl)
  | .ok u, .ok v =>
    if h : u = v then .isTrue (by rw [h]) else
      .isFalse (by intro hc; cases hc; exact h rfl)
  | .error _, .ok _ => .isFalse (by intro hc; cases hc)
  | .ok _, .error _ => .isFalse (by intro hc; cases hc)

/-- Model of `generateKeyPair` (app.js): base64 both halves of the library key
pair and record their sizes. -/
structure KeyPairResult where
  privateKey : List Char
  publicKey : List Char
  privateKeySize : Nat
  publicKeySize : Nat

/-- Model of `generateKeyPair` (app.js). -/
def generateKeyPair (P : Primitives) : KeyPairResult :=
  { privateKey := arrayToBase64 P.mcelieceKeyPair.privateKey
    publicKey := arrayToBase64 P.mcelieceKeyPair.publicKey
    privateKeySize := P.mcelieceKeyPair.privateKey.length
    publicKeySize := P.mcelieceKeyPair.publicKey.length }

/-- Model of `encryptMessage` (app.js): decode the public key, encapsulate,
AES-GCM-seal the UTF-8 plaintext under the shared secret with the fresh
12-byte IV `iv`, and package.  The result is the thrown exception kind
or the base64 package. -/
def encryptMessage (P : Primitives) (publicKeyBase64 : List Char)
    (plaintext : String) (iv : List Nat) : Except CryptoFailure (List Char) :=
  match base64ToArray publicKeyBase64 with
  | none => .error .invalidEncoding
  | some publicKey =>
    match P.mcelieceEncrypt publicKey with
    | .error _ => .error .kemFailure
    | .ok res =>
      match P.aesGcmEncrypt res.secret iv (utf8Encode plaintext) with
      | .error _ => .error .aeadFailure
      | .ok encryptedData =>
        .ok (packageCiphertext res.cyphertext iv encryptedData)

/-- Model of `decryptMessage` (app.js): unpackage (base64 decode + slice), decode
the private key, KEM-decrypt, AES-GCM-open, then decode the plaintext
bytes with the replacement-mode UTF-8 decoder. -/
def decryptMessage (P : Primitives)
    (privateKeyBase64 ciphertextPackage : List Char) :
    Except CryptoFailure String :=
  match base64ToArray ciphertextPackage with
  | none => .error .invalidEncoding
  | some combined =>
    let u := unpackageBytes combined
    match base64ToArray privateKeyBase64 with
    | none => .error .invalidEncoding
    | some privateKey =>
      match P.mcelieceDecrypt u.kemCiphertext privateKey with
      | .error _ => .error .kemFailure
      | .ok secret =>
        match P.aesGcmDecrypt secret u.iv u.encryptedData with
        | .error _ => .error .aeadFailure
        | .ok decryptedData => .ok (String.mk (utf8DecodeLossy decryptedData))

/-! ## The decrypt button handler

The click handler trims both fields, prompts on empty input, and maps
*any* exception from `decryptMessage` to the one fixed message
`✗ Decryption failed. Wrong key or corrupted data.` — the error value
itself is only logged to the console, never shown. -/

/-- JavaScript `String.prototype.trim` whitespace (the ASCII part that
can occur in the text fields). -/
def isJsSpace (c : Char) : Bool :=
  c = ' ' ∨ c = '\x09' ∨ c = '\x0a' ∨ c = '\x0b' ∨ c = '\x0c' ∨ c = '\x0d'

/-- Model of `String.prototype.trim` over a char list. -/
def jsTrim (s : List Char) : List Char :=
  ((s.dropWhile isJsSpace).reverse.dropWhile isJsSpace).reverse

/-- What the decrypt section of the page shows after a click. -/
inductive UiOutcome where
  | emptyKeyPrompt
  | emptyCiphertextPrompt
  | success (text : String)
  | failed
deriving DecidableEq

/-- The `decryptBtn` click handler: trim the two fields, prompt if one
is empty, otherwise run `decryptMessage`; every error collapses to the
single undifferentiated `failed` outcome. -/
def decryptClickOutcome (P : Primitives)
    (privkeyField ciphertextField : List Char) : UiOutcome :=
  let privateKey := jsTrim privkeyField
  let ciphertext := jsTrim ciphertextField
  if privateKey = [] then .emptyKeyPrompt
  else if ciphertext = [] then .emptyCiphertextPrompt
  else
    match decryptMessage P privateKey ciphertext with
    | .ok decrypted => .success decrypted
    | .error _ => .failed

/-! ## Concrete values used in scenarios and counterexamples -/

/-- The fixed 12-byte nonce of the spec's concrete scenario. -/
def nonce12 : List Nat := [1, 2, 3, 4, 5, 6, 7, 8, 9, 10, 11, 12]

/-- The 240-byte all-zero KEM ciphertext of the concrete scenario. -/
def scenarioKemCt : List Nat := List.replicate 240 0

/-- The sealed data `de ad be ef` of the concrete scenario. -/
def scenarioSealed : List Nat := [0xDE, 0xAD, 0xBE, 0xEF]

/-- The expected packed bytes of the concrete scenario. -/
def scenarioPacked : List Nat :=
  [0x00, 0x00, 0x00, 0xF0] ++ List.replicate 240 0 ++ nonce12 ++ scenarioSealed

/-- A KEM ciphertext of length 2^31, the smallest length whose
big-endian length field has the high bit of the first byte set. -/
def bigKemCt : List Nat := List.replicate 2147483648 0

/-- The 32-byte shared secret of the toy primitives. -/
def toySecret : List Nat := List.replicate 32 7

/-- The KEM ciphertext of the toy primitives. -/
def toyKemCt : List Nat := [9, 8, 7]

/-- A small concrete instantiation of the external collaborators whose
KEM and AEAD satisfy their correctness contracts on the toy key pair:
used to witness the composition theorems at computable inputs. -/
def toyPrimitives : Primitives where
  mcelieceKeyPair := { privateKey := [5, 6], publicKey := [1, 2, 3] }
  mcelieceEncrypt := fun pk =>
    if pk = [1, 2, 3] then .ok ⟨toyKemCt, toySecret⟩ else .error ()
  mcelieceDecrypt := fun kc sk =>
    if kc = toyKemCt ∧ sk = [5, 6] then .ok toySecret else .error ()
  aesGcmEncrypt := fun key _ pt =>
    if key = toySecret then .ok (pt ++ [0xAB, 0xCD]) else .error ()
  aesGcmDecrypt := fun key _ ct =>
    if key = toySecret ∧ ct.drop (ct.length - 2) = [0xAB, 0xCD] then
      .ok (ct.take (ct.length - 2))
    else .error ()

/-- Collaborators that throw at every cryptographic stage (a run whose
KEM and AEAD reject the given inputs). -/
def failPrimitives : Primitives where
  mcelieceKeyPair := { privateKey := [0], publicKey := [0] }
  mcelieceEncrypt := fun _ => .error ()
  mcelieceDecrypt := fun _ _ => .error ()
  aesGcmEncrypt := fun _ _ _ => .error ()
  aesGcmDecrypt := fun _ _ _ => .error ()

/-- Collaborators that accept every input (a run whose KEM silently
returns some secret and whose AEAD opens anything). -/
def lenientPrimitives : Primitives where
  mcelieceKeyPair := { privateKey := [0], publicKey := [0] }
  mcelieceEncrypt := fun pk => .ok ⟨pk, List.replicate 32 0⟩
  mcelieceDecrypt := fun _ _ => .ok (List.replicate 32 0)
  aesGcmEncrypt := fun _ _ pt => .ok pt
  aesGcmDecrypt := fun _ _ ct => .ok ct

/-! ## Base64 lemmas -/

theorem charToSextet_sextetToChar : ∀ n, n < 64 → charToSextet (sextetToChar n) = some n := by decide

theorem sextetToChar_ne_pad : ∀ n, n < 64 → sextetToChar n ≠ '=' := by decide

theorem sextetToChar_not_space : ∀ n, n < 64 → isB64Space (sextetToChar n) = false := by decide

theorem arrayToBase64_length_mod : ∀ l : List Nat, (arrayToBase64 l).length % 4 = 0 := by
  intro l
  induction l using arrayToBase64.induct <;> simp [arrayToBase64, *] <;> omega

theorem arrayToBase64_length_ge (a : Nat) (l : List Nat) :
    4 ≤ (arrayToBase64 (a :: l)).length := by
  match l with
  | [] => simp [arrayToBase64]
  | [b] => simp [arrayToBase64]
  | b :: c :: rest => simp [arrayToBase64]

theorem filter_nospace_arrayToBase64 (l : List Nat) (h : ∀ b ∈ l, b < 256) :
    (arrayToBase64 l).filter (fun c => !(isB64Space c)) = arrayToBase64 l := by
  induction l using arrayToBase64.induct with
  | case1 => simp [arrayToBase64]
  | case2 a =>
    have ha : a < 256 := h a (by simp)
    simp [arrayToBase64, List.filter,
      sextetToChar_not_space (a / 4) (by omega),
      sextetToChar_not_space (a % 4 * 16) (by omega)]
    decide
  | case3 a b =>
    have ha : a < 256 := h a (by simp)
    have hb : b < 256 := h b (by simp)
    simp [arrayToBase64, List.filter,
      sextetToChar_not_space (a / 4) (by omega),
      sextetToChar_not_space (a % 4 * 16 + b / 16) (by omega),
      sextetToChar_not_space (b % 16 * 4) (by omega)]
    decide
  | case4 a b c rest ih =>
    have ha : a < 256 := h a (by simp)
    have hb : b < 256 := h b (by simp)
    have hc : c < 256 := h c (by simp)
    have hr : ∀ x ∈ rest, x < 256 := fun x hx => h x (by simp [hx])
    simp [arrayToBase64, List.filter,
      sextetToChar_not_space (a / 4) (by omega),
      sextetToChar_not_space (a % 4 * 16 + b / 16) (by omega),
      sextetToChar_not_space (b % 16 * 4 + c / 64) (by omega),
      sextetToChar_not_space (c % 64) (by omega), ih hr]

theorem dropPadRev_append (x y : Char) (t u : List Char) :
    dropPadRev (x :: y :: (t ++ u)) = dropPadRev (x :: y :: t) ++ u := by
  by_cases hx : x = '='
  · by_cases hy : y = '=' <;> simp [dropPadRev, hx, hy]
  · simp [dropPadRev, hx]

theorem stripPad_arrayToBase64 (l : List Nat) (h : ∀ b ∈ l, b < 256) :
    stripPad (arrayToBase64 l) = b64EncodeCore l := by
  induction l using arrayToBase64.induct with
  | case1 => simp [arrayToBase64, stripPad, dropPadRev, b64EncodeCore]
  | case2 a =>
    simp [arrayToBase64, stripPad, dropPadRev, b64EncodeCore]
  | case3 a b =>
    have hb : b < 256 := h b (by simp)
    simp [arrayToBase64, stripPad, dropPadRev, b64EncodeCore,
      sextetToChar_ne_pad (b % 16 * 4) (by omega)]
  | case4 a b c rest ih =>
    have hc : c < 256 := h c (by simp)
    have hr : ∀ x ∈ rest, x < 256 := fun x hx => h x (by simp [hx])
    match rest with
    | [] =>
      simp [arrayToBase64, stripPad, dropPadRev, b64EncodeCore,
        sextetToChar_ne_pad (c % 64) (by omega)]
    | d :: rest2 =>
      have hlen : 4 ≤ (arrayToBase64 (d :: rest2)).length :=
        arrayToBase64_length_ge d rest2
      have hmod : (arrayToBase64 (d :: rest2)).length % 4 = 0 :=
        arrayToBase64_length_mod (d :: rest2)
      rcases hE : (arrayToBase64 (d :: rest2)).reverse with _ | ⟨x, _ | ⟨y, t⟩⟩
      · have h0 := congrArg List.length hE
        simp only [List.length_reverse, List.length_nil] at h0
        omega
      · have h0 := congrArg List.length hE
        simp only [List.length_reverse, List.length_cons, List.length_nil] at h0
        omega
      · have hstrip := ih hr
        rw [stripPad, if_pos hmod, hE] at hstrip
        show stripPad (arrayToBase64 (a :: b :: c :: d :: rest2)) = _
        have hEnc : arrayToBase64 (a :: b :: c :: d :: rest2) =
            [sextetToChar (a / 4), sextetToChar (a % 4 * 16 + b / 16),
             sextetToChar (b % 16 * 4 + c / 64), sextetToChar (c % 64)] ++
            arrayToBase64 (d :: rest2) := by
          simp [arrayToBase64]
        have hcond : ([sextetToChar (a / 4), sextetToChar (a % 4 * 16 + b / 16),
            sextetToChar (b % 16 * 4 + c / 64), sextetToChar (c % 64)] ++
            arrayToBase64 (d :: rest2)).length % 4 = 0 := by
          simp only [List.length_append, List.length_cons, List.length_nil]
          omega
        rw [hEnc, stripPad, if_pos hcond]
        rw [List.reverse_append, hE]
        have : (x :: y :: t) ++
            [sextetToChar (a / 4), sextetToChar (a % 4 * 16 + b / 16),
             sextetToChar (b % 16 * 4 + c / 64), sextetToChar (c % 64)].reverse =
            x :: y :: (t ++ [sextetToChar (a / 4), sextetToChar (a % 4 * 16 + b / 16),
              sextetToChar (b % 16 * 4 + c / 64), sextetToChar (c % 64)].reverse) := by
          simp
        rw [this, dropPadRev_append, List.reverse_append]
        simp only [List.reverse_reverse]
        rw [hstrip]
        simp [b64EncodeCore, arrayToBase64]

theorem toSextets_b64EncodeCore (l : List Nat) (h : ∀ b ∈ l, b < 256) :
    toSextets (b64EncodeCore l) = some (byteSextets l) := by
  induction l using b64EncodeCore.induct with
  | case1 => simp [b64EncodeCore, toSextets, byteSextets]
  | case2 a =>
    have ha : a < 256 := h a (by simp)
    simp [b64EncodeCore, toSextets, byteSextets,
      charToSextet_sextetToChar (a / 4) (by omega),
      charToSextet_sextetToChar (a % 4 * 16) (by omega)]
  | case3 a b =>
    have ha : a < 256 := h a (by simp)
    have hb : b < 256 := h b (by simp)
    simp [b64EncodeCore, toSextets, byteSextets,
      charToSextet_sextetToChar (a / 4) (by omega),
      charToSextet_sextetToChar (a % 4 * 16 + b / 16) (by omega),
      charToSextet_sextetToChar (b % 16 * 4) (by omega)]
  | case4 a b c rest ih =>
    have ha : a < 256 := h a (by simp)
    have hb : b < 256 := h b (by simp)
    have hc : c < 256 := h c (by simp)
    have hr : ∀ x ∈ rest, x < 256 := fun x hx => h x (by simp [hx])
    simp [b64EncodeCore, toSextets, byteSextets,
      charToSextet_sextetToChar (a / 4) (by omega),
      charToSextet_sextetToChar (a % 4 * 16 + b / 16) (by omega),
      charToSextet_sextetToChar (b % 16 * 4 + c / 64) (by omega),
      charToSextet_sextetToChar (c % 64) (by omega), ih hr]

theorem sextetsToBytes_byteSextets (l : List Nat) (h : ∀ b ∈ l, b < 256) :
    sextetsToBytes (byteSextets l) = some l := by
  induction l using byteSextets.induct with
  | case1 => simp [byteSextets, sextetsToBytes]
  | case2 a =>
    simp [byteSextets, sextetsToBytes]
    omega
  | case3 a b =>
    have hb : b < 256 := h b (by simp)
    simp [byteSextets, sextetsToBytes]
    constructor <;> omega
  | case4 a b c rest ih =>
    have hb : b < 256 := h b (by simp)
    have hc : c < 256 := h c (by simp)
    have hr : ∀ x ∈ rest, x < 256 := fun x hx => h x (by simp [hx])
    simp [byteSextets, sextetsToBytes, ih hr]
    refine ⟨by omega, by omega, by omega⟩

theorem b64EncodeCore_length_mod (l : List Nat) :
    (b64EncodeCore l).length % 4 ≠ 1 := by
  induction l using b64EncodeCore.induct <;> simp [b64EncodeCore, *] <;> omega

/-- Base64 transport is lossless: decoding an encoded byte list gives
back the bytes (`atob ∘ btoa` on binary strings of bytes). -/
theorem base64_roundtrip (l : List Nat) (h : ∀ b ∈ l, b < 256) :
    base64ToArray (arrayToBase64 l) = some l := by
  rw [base64ToArray]
  simp only [filter_nospace_arrayToBase64 l h, stripPad_arrayToBase64 l h]
  rw [if_neg (b64EncodeCore_length_mod l), toSextets_b64EncodeCore l h]
  exact sextetsToBytes_byteSextets l h

/-! ## UTF-8 lemmas -/

theorem char_toNat_valid (c : Char) :
    c.toNat < 0xD800 ∨ (0xE000 ≤ c.toNat ∧ c.toNat < 0x110000) := by
  have h := c.valid
  rcases h with h | ⟨h1, h2⟩
  · left; exact_mod_cast h
  · right
    refine ⟨?_, ?_⟩
    · show 0xE000 ≤ c.val.toNat
      exact_mod_cast h1
    · show c.val.toNat < 0x110000
      exact_mod_cast h2

theorem utf8DecodeLossy_encodeChar (c : Char) (rest : List Nat) :
    utf8DecodeLossy (utf8EncodeChar c ++ rest) = c :: utf8DecodeLossy rest := by
  have hv := char_toNat_valid c
  have hofn := Char.ofNat_toNat c
  set n := c.toNat with hn
  by_cases h1 : n < 0x80
  · rw [utf8EncodeChar]
    rw [← hn, if_pos h1]
    simp only [List.cons_append, List.nil_append]
    rw [utf8DecodeLossy.eq_def]
    simp only
    rw [if_pos h1, hofn]
  · by_cases h2 : n < 0x800
    · rw [utf8EncodeChar, ← hn, if_neg h1, if_pos h2]
      simp only [List.cons_append, List.nil_append]
      rw [utf8DecodeLossy.eq_def]
      simp only
      rw [if_neg (by omega), if_neg (by omega), if_pos (by omega),
        if_pos (by constructor <;> omega)]
      have harith : (0xC0 + n / 64 - 0xC0) * 64 + (0x80 + n % 64 - 0x80) = n := by
        omega
      rw [harith, hofn]
    · by_cases h3 : n < 0x10000
      · rw [utf8EncodeChar, ← hn, if_neg h1, if_neg h2, if_pos h3]
        simp only [List.cons_append, List.nil_append]
        rw [utf8DecodeLossy.eq_def]
        simp only
        rw [if_neg (by omega), if_neg (by omega), if_neg (by omega),
          if_pos (by omega)]
        rw [if_pos (by
          simp only [contLo, contHi]
          split_ifs with ha hb hc hd he hf <;> omega)]
        rw [if_pos (by refine ⟨by omega, by omega⟩)]
        have harith : (0xE0 + n / 4096 - 0xE0) * 4096 +
            (0x80 + n / 64 % 64 - 0x80) * 64 + (0x80 + n % 64 - 0x80) = n := by
          omega
        rw [harith, hofn]
      · have h4 : n < 0x110000 := by omega
        rw [utf8EncodeChar, ← hn, if_neg h1, if_neg h2, if_neg h3]
        simp only [List.cons_append, List.nil_append]
        rw [utf8DecodeLossy.eq_def]
        simp only
        rw [if_neg (by omega), if_neg (by omega), if_neg (by omega),
          if_neg (by omega), if_pos (by omega)]
        rw [if_pos (by
          simp only [contLo, contHi]
          split_ifs with ha hb hc hd he hf <;> omega)]
        rw [if_pos (by refine ⟨by omega, by omega⟩)]
        rw [if_pos (by refine ⟨by omega, by omega⟩)]
        have harith : (0xF0 + n / 262144 - 0xF0) * 262144 +
            (0x80 + n / 4096 % 64 - 0x80) * 4096 +
            (0x80 + n / 64 % 64 - 0x80) * 64 + (0x80 + n % 64 - 0x80) = n := by
          omega
        rw [harith, hofn]

theorem utf8_roundtrip (s : String) : utf8DecodeLossy (utf8Encode s) = s.data := by
  rw [utf8Encode]
  induction s.data with
  | nil => rfl
  | cons c t ih => rw [List.foldr_cons, utf8DecodeLossy_encodeChar, ih]

theorem replChar_mem_of_invalid (l : List Nat) (h : validUtf8 l = false) :
    replChar ∈ utf8DecodeLossy l := by
  induction l using utf8DecodeLossy.induct with
  | case1 => simp [validUtf8] at h
  | case2 c r2 h1 ih =>
    rw [validUtf8.eq_def] at h
    simp only [if_pos h1] at h
    rw [utf8DecodeLossy.eq_def]
    simp only [if_pos h1]
    exact List.mem_cons_of_mem _ (ih h)
  | case3 c r2 h1 h2 ih =>
    rw [utf8DecodeLossy.eq_def]
    simp only [if_neg h1, if_pos h2]
    exact List.mem_cons_self _ _
  | case4 c h1 h2 h3 =>
    rw [utf8DecodeLossy.eq_def]
    simp only [if_neg h1, if_neg h2, if_pos h3]
    exact List.mem_cons_self _ _
  | case5 c h1 h2 h3 c1 r2 hc1 ih =>
    rw [validUtf8.eq_def] at h
    simp only [if_neg h1, if_neg h2, if_pos h3, if_pos hc1] at h
    rw [utf8DecodeLossy.eq_def]
    simp only [if_neg h1, if_neg h2, if_pos h3, if_pos hc1]
    exact List.mem_cons_of_mem _ (ih h)
  | case6 c h1 h2 h3 c1 r2 hc1 ih =>
    rw [utf8DecodeLossy.eq_def]
    simp only [if_neg h1, if_neg h2, if_pos h3, if_neg hc1]
    exact List.mem_cons_self _ _
  | case7 c h1 h2 h3 h4 =>
    rw [utf8DecodeLossy.eq_def]
    simp only [if_neg h1, if_neg h2, if_neg h3, if_pos h4]
    exact List.mem_cons_self _ _
  | case8 c h1 h2 h3 h4 c1 hc1 =>
    rw [utf8DecodeLossy.eq_def]
    simp only [if_neg h1, if_neg h2, if_neg h3, if_pos h4, if_pos hc1]
    exact List.mem_cons_self _ _
  | case9 c h1 h2 h3 h4 c1 hc1 c2 r2 hc2 ih =>
    rw [validUtf8.eq_def] at h
    simp only [if_neg h1, if_neg h2, if_neg h3, if_pos h4, if_pos hc1,
      if_pos hc2] at h
    rw [utf8DecodeLossy.eq_def]
    simp only [if_neg h1, if_neg h2, if_neg h3, if_pos h4, if_pos hc1,
      if_pos hc2]
    exact List.mem_cons_of_mem _ (ih h)
  | case10 c h1 h2 h3 h4 c1 hc1 c2 r2 hc2 ih =>
    rw [utf8DecodeLossy.eq_def]
    simp only [if_neg h1, if_neg h2, if_neg h3, if_pos h4, if_pos hc1,
      if_neg hc2]
    exact List.mem_cons_self _ _
  | case11 c h1 h2 h3 h4 c1 r2 hc1 ih =>
    rw [utf8DecodeLossy.eq_def]
    simp only [if_neg h1, if_neg h2, if_neg h3, if_pos h4, if_neg hc1]
    exact List.mem_cons_self _ _
  | case12 c h1 h2 h3 h4 h5 =>
    rw [utf8DecodeLossy.eq_def]
    simp only [if_neg h1, if_neg h2, if_neg h3, if_neg h4, if_pos h5]
    exact List.mem_cons_self _ _
  | case13 c h1 h2 h3 h4 h5 c1 hc1 =>
    rw [utf8DecodeLossy.eq_def]
    simp only [if_neg h1, if_neg h2, if_neg h3, if_neg h4, if_pos h5,
      if_pos hc1]
    exact List.mem_cons_self _ _
  | case14 c h1 h2 h3 h4 h5 c1 hc1 c2 hc2 =>
    rw [utf8DecodeLossy.eq_def]
    simp only [if_neg h1, if_neg h2, if_neg h3, if_neg h4, if_pos h5,
      if_pos hc1, if_pos hc2]
    exact List.mem_cons_self _ _
  | case15 c h1 h2 h3 h4 h5 c1 hc1 c2 hc2 c3 r2 hc3 ih =>
    rw [validUtf8.eq_def] at h
    simp only [if_neg h1, if_neg h2, if_neg h3, if_neg h4, if_pos h5,
      if_pos hc1, if_pos hc2, if_pos hc3] at h
    rw [utf8DecodeLossy.eq_def]
    simp only [if_neg h1, if_neg h2, if_neg h3, if_neg h4, if_pos h5,
      if_pos hc1, if_pos hc2, if_pos hc3]
    exact List.mem_cons_of_mem _ (ih h)
  | case16 c h1 h2 h3 h4 h5 c1 hc1 c2 hc2 c3 r2 hc3 ih =>
    rw [utf8DecodeLossy.eq_def]
    simp only [if_neg h1, if_neg h2, if_neg h3, if_neg h4, if_pos h5,
      if_pos hc1, if_pos hc2, if_neg hc3]
    exact List.mem_cons_self _ _
  | case17 c h1 h2 h3 h4 h5 c1 hc1 c2 r2 hc2 ih =>
    rw [utf8DecodeLossy.eq_def]
    simp only [if_neg h1, if_neg h2, if_neg h3, if_neg h4, if_pos h5,
      if_pos hc1, if_neg hc2]
    exact List.mem_cons_self _ _
  | case18 c h1 h2 h3 h4 h5 c1 r2 hc1 ih =>
    rw [utf8DecodeLossy.eq_def]
    simp only [if_neg h1, if_neg h2, if_neg h3, if_neg h4, if_pos h5,
      if_neg hc1]
    exact List.mem_cons_self _ _
  | case19 c r2 h1 h2 h3 h4 h5 ih =>
    rw [utf8DecodeLossy.eq_def]
    simp only [if_neg h1, if_neg h2, if_neg h3, if_neg h4, if_neg h5]
    exact List.mem_cons_self _ _

/-! ## Envelope lemmas -/

theorem kemLengthBytes_length (k : Nat) : (kemLengthBytes k).length = 4 := rfl

theorem jsSetAt_middle (p q r src : List Nat) (n : Nat) (hn : n = p.length)
    (hq : q.length = src.length) :
    jsSetAt (p ++ (q ++ r)) src n = p ++ (src ++ r) := by
  subst hn
  rw [jsSetAt]
  have h1 : (p ++ (q ++ r)).take p.length = p := List.take_left p (q ++ r)
  have h2 : (p ++ (q ++ r)).drop (p.length + src.length) = r := by
    rw [List.drop_append, ← hq, List.drop_left]
  rw [h1, h2, List.append_assoc]

theorem packageBytes_eq (k iv e : List Nat) (hiv : iv.length = 12) :
    packageBytes k iv e = kemLengthBytes k.length ++ k ++ iv ++ e := by
  rw [packageBytes]
  have hrep : List.replicate (4 + k.length + 12 + e.length - 4) (0 : Nat) =
      List.replicate k.length 0 ++
        (List.replicate 12 0 ++ List.replicate e.length 0) := by
    rw [← List.replicate_add, ← List.replicate_add]
    congr 1
    omega
  rw [hrep]
  rw [jsSetAt_middle (kemLengthBytes k.length)
    (List.replicate k.length 0)
    (List.replicate 12 0 ++ List.replicate e.length 0) k 4
    (by rw [kemLengthBytes_length]) (by simp)]
  have hassoc1 : kemLengthBytes k.length ++
      (k ++ (List.replicate 12 0 ++ List.replicate e.length 0)) =
      (kemLengthBytes k.length ++ k) ++
        (List.replicate 12 0 ++ List.replicate e.length 0) := by
    rw [List.append_assoc]
  rw [hassoc1]
  rw [jsSetAt_middle (kemLengthBytes k.length ++ k) (List.replicate 12 0)
    (List.replicate e.length 0) iv (4 + k.length)
    (by simp [kemLengthBytes_length]) (by simp [hiv])]
  have hassoc2 : (kemLengthBytes k.length ++ k) ++
      (iv ++ List.replicate e.length 0) =
      ((kemLengthBytes k.length ++ k) ++ iv) ++
        (List.replicate e.length 0 ++ []) := by
    simp [List.append_assoc]
  rw [hassoc2]
  rw [jsSetAt_middle ((kemLengthBytes k.length ++ k) ++ iv)
    (List.replicate e.length 0) [] e (4 + k.length + 12)
    (by simp [kemLengthBytes_length, hiv]; omega) (by simp)]
  simp [List.append_assoc]

theorem jsToInt32_of_nonneg_lt (n : Int) (h0 : 0 ≤ n) (h1 : n < 4294967296) :
    jsToInt32 n = if n < 2147483648 then n else n - 4294967296 := by
  rw [jsToInt32]
  have h : n.emod 4294967296 = n := Int.emod_eq_of_lt h0 h1
  simp only [h]

theorem kemLengthBytes_val (K : Nat) (h : K < 4294967296) :
    kemLengthBytes K =
      [K / 16777216, K / 65536 % 256, K / 256 % 256, K % 256] := by
  rw [kemLengthBytes]
  have hm : K % 4294967296 = K := Nat.mod_eq_of_lt h
  simp only [hm]
  have h1 : K / 16777216 % 256 = K / 16777216 := Nat.mod_eq_of_lt (by omega)
  rw [h1]

theorem readKemLength_append (K : Nat) (rest : List Nat)
    (h : K < 4294967296) :
    readKemLength (kemLengthBytes K ++ rest) = jsToInt32 (K : Int) := by
  rw [readKemLength]
  have hlen : (kemLengthBytes K).length = 4 := kemLengthBytes_length K
  have g0 : (kemLengthBytes K ++ rest).getD 0 0 = K / 16777216 := by
    rw [List.getD_append _ _ _ _ (by omega), kemLengthBytes_val K h]
    rfl
  have g1 : (kemLengthBytes K ++ rest).getD 1 0 = K / 65536 % 256 := by
    rw [List.getD_append _ _ _ _ (by omega), kemLengthBytes_val K h]
    rfl
  have g2 : (kemLengthBytes K ++ rest).getD 2 0 = K / 256 % 256 := by
    rw [List.getD_append _ _ _ _ (by omega), kemLengthBytes_val K h]
    rfl
  have g3 : (kemLengthBytes K ++ rest).getD 3 0 = K % 256 := by
    rw [List.getD_append _ _ _ _ (by omega), kemLengthBytes_val K h]
    rfl
  rw [g0, g1, g2, g3]
  congr 1
  have : K / 16777216 * 16777216 + K / 65536 % 256 * 65536 +
      K / 256 % 256 * 256 + K % 256 = K := by omega
  exact_mod_cast congrArg (Nat.cast : Nat → Int) this

theorem readKemLength_append_small (K : Nat) (rest : List Nat)
    (h : K < 2147483648) :
    readKemLength (kemLengthBytes K ++ rest) = (K : Int) := by
  rw [readKemLength_append K rest (by omega),
    jsToInt32_of_nonneg_lt _ (by omega) (by exact_mod_cast (by omega : K < 4294967296))]
  rw [if_pos (by exact_mod_cast h)]

theorem readKemLength_append_big (K : Nat) (rest : List Nat)
    (h1 : 2147483648 ≤ K) (h2 : K < 4294967296) :
    readKemLength (kemLengthBytes K ++ rest) = (K : Int) - 4294967296 := by
  rw [readKemLength_append K rest h2,
    jsToInt32_of_nonneg_lt _ (by omega) (by exact_mod_cast h2)]
  rw [if_neg (by push_cast; omega)]

theorem jsClampIndex_natCast (len n : Nat) :
    jsClampIndex len (n : Int) = min n len := by
  rw [jsClampIndex, if_neg (by omega)]
  simp

theorem jsSlice_middle (p mid s : List Nat) :
    jsSlice (p ++ (mid ++ s)) (p.length : Int)
      ((p.length + mid.length : Nat) : Int) = mid := by
  rw [jsSlice]
  have hlen : (p ++ (mid ++ s)).length = p.length + mid.length + s.length := by
    simp [List.length_append]
    omega
  rw [jsClampIndex_natCast, jsClampIndex_natCast, hlen]
  have h1 : min p.length (p.length + mid.length + s.length) = p.length := by omega
  have h2 : min (p.length + mid.length) (p.length + mid.length + s.length) =
      p.length + mid.length := by omega
  rw [h1, h2, List.drop_left]
  have h3 : p.length + mid.length - p.length = mid.length := by omega
  rw [h3, List.take_left]

theorem jsSlice_suffix (p s : List Nat) :
    jsSlice (p ++ s) (p.length : Int) (((p ++ s).length : Nat) : Int) = s := by
  rw [jsSlice]
  have hlen : (p ++ s).length = p.length + s.length := by simp
  rw [jsClampIndex_natCast, jsClampIndex_natCast, hlen]
  have h1 : min p.length (p.length + s.length) = p.length := by omega
  have h2 : min (p.length + s.length) (p.length + s.length) =
      p.length + s.length := by omega
  rw [h1, h2, List.drop_left]
  have h3 : p.length + s.length - p.length = s.length := by omega
  rw [h3, List.take_of_length_le (by omega)]

theorem unpackageBytes_def (combined : List Nat) :
    unpackageBytes combined =
      { kemCiphertext := jsSlice combined 4 (4 + readKemLength combined)
        iv := jsSlice combined (4 + readKemLength combined)
            (4 + readKemLength combined + 12)
        encryptedData :=
          jsSliceFrom combined (4 + readKemLength combined + 12) } := rfl

/-- The envelope byte layout round-trips: for a 12-byte IV and a KEM
ciphertext shorter than 2^31 bytes, slicing the packed bytes recovers
the three components exactly. -/
theorem unpackageBytes_packageBytes (k iv e : List Nat)
    (hk : k.length < 2147483648) (hiv : iv.length = 12) :
    unpackageBytes (packageBytes k iv e) = ⟨k, iv, e⟩ := by
  rw [packageBytes_eq k iv e hiv, unpackageBytes_def]
  have hassoc1 : kemLengthBytes k.length ++ k ++ iv ++ e =
      kemLengthBytes k.length ++ (k ++ (iv ++ e)) := by
    simp [List.append_assoc]
  have hL : readKemLength (kemLengthBytes k.length ++ k ++ iv ++ e) =
      (k.length : Int) := by
    rw [hassoc1]
    exact readKemLength_append_small k.length _ hk
  rw [hL]
  simp only [UnpackResult.mk.injEq]
  refine ⟨?_, ?_, ?_⟩
  · have harg1 : (4 : Int) = ((kemLengthBytes k.length).length : Int) := by
      rw [kemLengthBytes_length]
      norm_num
    have harg2 : (4 : Int) + (k.length : Int) =
        (((kemLengthBytes k.length).length + k.length : Nat) : Int) := by
      rw [kemLengthBytes_length]
      push_cast
      ring
    rw [harg2, hassoc1]
    have := jsSlice_middle (kemLengthBytes k.length) k (iv ++ e)
    rw [show ((kemLengthBytes k.length).length : Int) = (4 : Int) by
      rw [kemLengthBytes_length]; norm_num] at this
    exact this
  · have hp : ((kemLengthBytes k.length ++ k).length : Int) =
        (4 : Int) + (k.length : Int) := by
      simp [kemLengthBytes_length]
    have hassoc2 : kemLengthBytes k.length ++ k ++ iv ++ e =
        (kemLengthBytes k.length ++ k) ++ (iv ++ e) := by
      simp [List.append_assoc]
    have := jsSlice_middle (kemLengthBytes k.length ++ k) iv e
    rw [hp] at this
    rw [show (((kemLengthBytes k.length ++ k).length + iv.length : Nat) : Int) =
        (4 : Int) + (k.length : Int) + 12 by
      simp [kemLengthBytes_length, hiv]
      try push_cast
      try ring] at this
    rw [hassoc2]
    exact this
  · have hassoc3 : kemLengthBytes k.length ++ k ++ iv ++ e =
        ((kemLengthBytes k.length ++ k) ++ iv) ++ e := rfl
    have := jsSlice_suffix ((kemLengthBytes k.length ++ k) ++ iv) e
    rw [show ((((kemLengthBytes k.length ++ k) ++ iv).length : Nat) : Int) =
        (4 : Int) + (k.length : Int) + 12 by
      simp [kemLengthBytes_length, hiv]
      try push_cast
      try ring] at this
    rw [jsSliceFrom, hassoc3]
    exact this

theorem kemLengthBytes_mem_lt (K : Nat) : ∀ b ∈ kemLengthBytes K, b < 256 := by
  intro b hb
  rw [kemLengthBytes] at hb
  simp only [List.mem_cons, List.not_mem_nil, or_false] at hb
  rcases hb with h | h | h | h <;> omega

theorem packageBytes_mem_lt (k iv e : List Nat) (hiv : iv.length = 12)
    (hkb : ∀ b ∈ k, b < 256) (hivb : ∀ b ∈ iv, b < 256)
    (heb : ∀ b ∈ e, b < 256) :
    ∀ b ∈ packageBytes k iv e, b < 256 := by
  intro b hb
  rw [packageBytes_eq k iv e hiv] at hb
  simp only [List.append_assoc, List.mem_append] at hb
  rcases hb with h | h | h | h
  · exact kemLengthBytes_mem_lt k.length b h
  · exact hkb b h
  · exact hivb b h
  · exact heb b h

/-- The full transport round-trip: packing then unpackaging through the
base64 layer recovers the components, for a 12-byte IV, a KEM ciphertext
shorter than 2^31 and byte-valued components. -/
theorem unpackage_package_roundtrip (k iv e : List Nat)
    (hk : k.length < 2147483648) (hiv : iv.length = 12)
    (hkb : ∀ b ∈ k, b < 256) (hivb : ∀ b ∈ iv, b < 256)
    (heb : ∀ b ∈ e, b < 256) :
    unpackageCiphertext (packageCiphertext k iv e) =
      some ⟨k, iv, e⟩ := by
  rw [packageCiphertext, unpackageCiphertext,
    base64_roundtrip _ (packageBytes_mem_lt k iv e hiv hkb hivb heb)]
  rw [Option.map, unpackageBytes_packageBytes k iv e hk hiv]

/-! ## The signed length-field parse at 2^31 -/

theorem bigKemCt_length : bigKemCt.length = 2147483648 := by
  rw [bigKemCt, List.length_replicate]

theorem bigKemCt_mem_lt : ∀ b ∈ bigKemCt, b < 256 := by
  intro b hb
  rw [bigKemCt] at hb
  have := List.eq_of_mem_replicate hb
  omega

theorem packageBytes_big_readKemLength :
    readKemLength (packageBytes bigKemCt nonce12 [2]) = -2147483648 := by
  rw [packageBytes_eq bigKemCt nonce12 [2] (by decide)]
  have hassoc : kemLengthBytes bigKemCt.length ++ bigKemCt ++ nonce12 ++ [2] =
      kemLengthBytes bigKemCt.length ++ (bigKemCt ++ (nonce12 ++ [2])) := by
    simp [List.append_assoc]
  rw [hassoc, bigKemCt_length,
    readKemLength_append_big 2147483648 _ (by omega) (by omega)]
  norm_num

theorem packageBytes_big_length :
    (packageBytes bigKemCt nonce12 [2]).length = 2147483665 := by
  rw [packageBytes_eq _ _ _ (by decide)]
  rw [List.length_append, List.length_append, List.length_append,
    kemLengthBytes_length, bigKemCt_length]
  norm_num [nonce12]

theorem jsSlice_length (l : List Nat) (s e : Int) :
    (jsSlice l s e).length =
      min (jsClampIndex l.length e - jsClampIndex l.length s)
        (l.length - jsClampIndex l.length s) := by
  rw [jsSlice]
  simp [List.length_take, List.length_drop]

theorem big_unpack_kemCt_length :
    (unpackageBytes
      (packageBytes bigKemCt nonce12 [2])).kemCiphertext.length = 17 := by
  rw [unpackageBytes_def]
  simp only [packageBytes_big_readKemLength]
  rw [jsSlice_length, packageBytes_big_length]
  norm_num [jsClampIndex]
  decide

/-! ## Claim theorems -/

/-- C2 (counterexample): the envelope round-trip fails for a byte triple
whose KEM ciphertext has length 2^31: the length field is read back
through JavaScript's signed 32-bit `|`, comes out negative, and the
slices collapse, so unpackaging does not return the original triple. -/
theorem envelope_roundtrip_counterexample :
    unpackageCiphertext (packageCiphertext bigKemCt nonce12 [2]) ≠
      some ⟨bigKemCt, nonce12, [2]⟩ := by
  have hb : ∀ b ∈ packageBytes bigKemCt nonce12 [2], b < 256 :=
    packageBytes_mem_lt _ _ _ (by decide) bigKemCt_mem_lt (by decide) (by decide)
  rw [packageCiphertext, unpackageCiphertext, base64_roundtrip _ hb, Option.map]
  intro h
  have h2 : unpackageBytes (packageBytes bigKemCt nonce12 [2]) =
      ⟨bigKemCt, nonce12, [2]⟩ := by
    exact Option.some.inj h
  have h3 := congrArg (fun r : UnpackResult => r.kemCiphertext.length) h2
  simp only [big_unpack_kemCt_length] at h3
  rw [bigKemCt_length] at h3
  exact absurd h3 (by norm_num)

/-- C2 (amended): for every byte triple whose nonce is exactly 12 bytes
and whose KEM ciphertext is shorter than 2^31 bytes,
`Unpack(Pack(kemCt, nonce, sealed))` returns the triple unchanged. -/
theorem envelope_roundtrip (k iv e : List Nat)
    (hk : k.length < 2147483648) (hiv : iv.length = 12)
    (hkb : ∀ b ∈ k, b < 256) (hivb : ∀ b ∈ iv, b < 256)
    (heb : ∀ b ∈ e, b < 256) :
    unpackageCiphertext (packageCiphertext k iv e) = some ⟨k, iv, e⟩ :=
  unpackage_package_roundtrip k iv e hk hiv hkb hivb heb

theorem envelope_roundtrip_witness :
    unpackageCiphertext (packageCiphertext [7, 7] nonce12 [0, 255]) =
      some ⟨[7, 7], nonce12, [0, 255]⟩ :=
  envelope_roundtrip [7, 7] nonce12 [0, 255] (by decide) (by decide)
    (by decide) (by decide) (by decide)

/-- C4 (counterexample): `Pack` of a 2^31-byte KEM ciphertext writes the
length bytes `80 00 00 00`, but `Unpack` reads them back as the negative
signed value `-2^31`, not as the unsigned length 2^31. -/
theorem length_field_signed_counterexample :
    bigKemCt.length = 2147483648 ∧
    readKemLength (packageBytes bigKemCt nonce12 [2]) = -2147483648 ∧
    readKemLength (packageBytes bigKemCt nonce12 [2]) < 0 :=
  ⟨bigKemCt_length, packageBytes_big_readKemLength, by
    rw [packageBytes_big_readKemLength]; norm_num⟩

/-- C4 (amended): for every length below 2^32 the writer stores the
exact unsigned big-endian bytes (they recombine to the length), and the
reader returns exactly that value whenever it is below 2^31; when the
first byte has the high bit set (length in [2^31, 2^32)) the reader
instead returns the value minus 2^32, a negative number. -/
theorem length_field_bigendian (K : Nat) (rest : List Nat)
    (h : K < 4294967296) :
    kemLengthBytes K =
      [K / 16777216, K / 65536 % 256, K / 256 % 256, K % 256] ∧
    K / 16777216 * 16777216 + K / 65536 % 256 * 65536 +
      K / 256 % 256 * 256 + K % 256 = K ∧
    (K < 2147483648 →
      readKemLength (kemLengthBytes K ++ rest) = (K : Int)) ∧
    (2147483648 ≤ K →
      readKemLength (kemLengthBytes K ++ rest) = (K : Int) - 4294967296) := by
  refine ⟨kemLengthBytes_val K h, by omega, ?_, ?_⟩
  · intro hs
    exact readKemLength_append_small K rest hs
  · intro hb
    exact readKemLength_append_big K rest hb h

theorem length_field_bigendian_witness :
    (kemLengthBytes 2147483648 =
      [2147483648 / 16777216, 2147483648 / 65536 % 256,
       2147483648 / 256 % 256, 2147483648 % 256] ∧
    2147483648 / 16777216 * 16777216 + 2147483648 / 65536 % 256 * 65536 +
      2147483648 / 256 % 256 * 256 + 2147483648 % 256 = 2147483648 ∧
    (2147483648 < 2147483648 →
      readKemLength (kemLengthBytes 2147483648 ++ []) = (2147483648 : Int)) ∧
    (2147483648 ≤ 2147483648 →
      readKemLength (kemLengthBytes 2147483648 ++ []) =
        (2147483648 : Int) - 4294967296)) ∧
    readKemLength (kemLengthBytes 2147483648 ++ []) =
      (2147483648 : Int) - 4294967296 := by
  have h := length_field_bigendian 2147483648 [] (by norm_num)
  exact ⟨h, h.2.2.2 (by norm_num)⟩

set_option maxRecDepth 40000 in
/-- C5: on the fixed scenario inputs (240 zero bytes, the nonce
`01…0c`, sealed data `de ad be ef`), packing produces exactly
`00 00 00 F0` ++ zeros ++ nonce ++ `de ad be ef`, and unpackaging that
byte sequence — directly or through the base64 transport — returns the
three original components unchanged. -/
theorem concrete_scenario :
    packageBytes scenarioKemCt nonce12 scenarioSealed = scenarioPacked ∧
    unpackageBytes scenarioPacked =
      ⟨scenarioKemCt, nonce12, scenarioSealed⟩ ∧
    unpackageCiphertext (packageCiphertext scenarioKemCt nonce12 scenarioSealed) =
      some ⟨scenarioKemCt, nonce12, scenarioSealed⟩ := by
  refine ⟨by decide, by decide, ?_⟩
  exact unpackage_package_roundtrip _ _ _ (by decide) (by decide)
    (fun b hb => by
      rw [scenarioKemCt] at hb
      have := List.eq_of_mem_replicate hb
      omega)
    (by decide) (by decide)

/-- C3 (counterexample): the buffer `00 00 00 05` declares a 5-byte KEM
ciphertext but is only 4 bytes long (well below `4 + 5 + 12`), yet no
structural `TruncatedEnvelope` rejection exists: with collaborators
whose KEM throws, the failure is the KEM stage's; with collaborators
that accept anything, the same truncated envelope decrypts successfully.
The cryptographic primitives are therefore reached, and decide the
outcome, on a truncated envelope. -/
theorem truncated_envelope_counterexample :
    (([0, 0, 0, 5] : List Nat).length : Int) <
      4 + readKemLength [0, 0, 0, 5] + 12 ∧
    decryptMessage failPrimitives (arrayToBase64 [7])
      (arrayToBase64 [0, 0, 0, 5]) = .error .kemFailure ∧
    decryptMessage lenientPrimitives (arrayToBase64 [7])
      (arrayToBase64 [0, 0, 0, 5]) = .ok "" := by
  refine ⟨by decide, by decide, by decide⟩

/-- C3 (amended): `Unpack` performs no length validation at all.  For
every decodable package — including every truncated one — decryption
proceeds past unpackaging, and the result is entirely decided by the
cryptographic stages applied to the clamped slices. -/
theorem truncation_reaches_crypto (P : Primitives)
    (keyB64 pkgB64 : List Char) (combined privateKey : List Nat)
    (hpkg : base64ToArray pkgB64 = some combined)
    (hkey : base64ToArray keyB64 = some privateKey) :
    decryptMessage P keyB64 pkgB64 =
      (match P.mcelieceDecrypt (unpackageBytes combined).kemCiphertext
          privateKey with
       | .error _ => .error .kemFailure
       | .ok secret =>
         match P.aesGcmDecrypt secret (unpackageBytes combined).iv
             (unpackageBytes combined).encryptedData with
         | .error _ => .error .aeadFailure
         | .ok decryptedData =>
           .ok (String.mk (utf8DecodeLossy decryptedData))) := by
  simp only [decryptMessage, hpkg, hkey]

theorem truncation_reaches_crypto_witness :
    decryptMessage failPrimitives (arrayToBase64 [9])
      (arrayToBase64 [0, 0, 0, 200]) =
      (match failPrimitives.mcelieceDecrypt
          (unpackageBytes [0, 0, 0, 200]).kemCiphertext [9] with
       | .error _ => .error .kemFailure
       | .ok secret =>
         match failPrimitives.aesGcmDecrypt secret
             (unpackageBytes [0, 0, 0, 200]).iv
             (unpackageBytes [0, 0, 0, 200]).encryptedData with
         | .error _ => .error .aeadFailure
         | .ok decryptedData =>
           .ok (String.mk (utf8DecodeLossy decryptedData))) :=
  truncation_reaches_crypto failPrimitives (arrayToBase64 [9])
    (arrayToBase64 [0, 0, 0, 200]) [0, 0, 0, 200] [9] (by decide) (by decide)

theorem jsSlice_le12 (l : List Nat) (s : Int) :
    (jsSlice l s (s + 12)).length ≤ 12 := by
  rw [jsSlice_length, jsClampIndex, jsClampIndex]
  split_ifs <;> omega

theorem jsSlice_start4_le (l : List Nat) (L : Int) (hL : 0 ≤ L) :
    ((jsSlice l 4 (4 + L)).length : Int) ≤ L := by
  rw [jsSlice_length, jsClampIndex, jsClampIndex]
  split_ifs <;> push_cast <;> omega

theorem readKemLength_pad (buf : List Nat) :
    readKemLength buf =
      readKemLength (buf ++ List.replicate (4 - buf.length) 0) := by
  rw [readKemLength, readKemLength]
  have g : ∀ i, i < 4 →
      (buf ++ List.replicate (4 - buf.length) 0).getD i 0 = buf.getD i 0 := by
    intro i hi
    by_cases hib : i < buf.length
    · rw [List.getD_append _ _ _ _ hib]
    · have hrhs : buf.getD i 0 = 0 := List.getD_eq_default _ _ (by omega)
      have hlhs : (List.replicate (4 - buf.length) 0).getD (i - buf.length) 0 =
          0 := by
        by_cases hr : i - buf.length < 4 - buf.length
        · rw [List.getD_eq_getElem _ _ (by simpa using hr)]
          exact List.getElem_replicate _ _
        · exact List.getD_eq_default _ _ (by simpa using hr)
      rw [List.getD_append_right _ _ _ _ (by omega), hlhs, hrhs]
  rw [g 0 (by omega), g 1 (by omega), g 2 (by omega), g 3 (by omega)]

set_option maxRecDepth 100000 in
/-- C9: `unpackageCiphertext`'s slicing is total over decoded byte
buffers: every buffer, however short, yields a triple (never an error);
the prefix bytes missing from a short length field read as zero; the
nonce slice never exceeds 12 bytes; and the KEM ciphertext slice never
exceeds the declared (non-negative) length. -/
theorem unpack_total_clamped (buf : List Nat) :
    (∃ r : UnpackResult, unpackageBytes buf = r) ∧
    (unpackageBytes buf).iv.length ≤ 12 ∧
    (0 ≤ readKemLength buf →
      ((unpackageBytes buf).kemCiphertext.length : Int) ≤ readKemLength buf) ∧
    (buf.length < 4 →
      readKemLength buf =
        readKemLength (buf ++ List.replicate (4 - buf.length) 0)) := by
  refine ⟨⟨_, rfl⟩, ?_, ?_, fun _ => readKemLength_pad buf⟩
  · have h12 := jsSlice_le12 buf (4 + readKemLength buf)
    simpa only [unpackageBytes] using h12
  · intro hL
    have hb := jsSlice_start4_le buf (readKemLength buf) hL
    simpa only [unpackageBytes] using hb

theorem unpack_total_clamped_witness :
    ((∃ r : UnpackResult, unpackageBytes [0, 5] = r) ∧
      (unpackageBytes [0, 5]).iv.length ≤ 12 ∧
      (0 ≤ readKemLength [0, 5] →
        ((unpackageBytes [0, 5]).kemCiphertext.length : Int) ≤
          readKemLength [0, 5]) ∧
      (([0, 5] : List Nat).length < 4 →
        readKemLength [0, 5] =
          readKemLength ([0, 5] ++
            List.replicate (4 - ([0, 5] : List Nat).length) 0))) ∧
    ((unpackageBytes [0, 5]).kemCiphertext.length : Int) ≤
      readKemLength [0, 5] := by
  have h := unpack_total_clamped [0, 5]
  exact ⟨h, h.2.2.1 (by decide)⟩

/-- C6: every failure of `decryptMessage` — whatever its kind, from any
stage — produces the same single `failed` outcome at the decrypt button,
with no stage information. -/
theorem decrypt_failure_collapses (P : Primitives)
    (keyField ctField : List Char) (e : CryptoFailure)
    (hkey : jsTrim keyField ≠ [])
    (hct : jsTrim ctField ≠ [])
    (herr : decryptMessage P (jsTrim keyField) (jsTrim ctField) = .error e) :
    decryptClickOutcome P keyField ctField = .failed := by
  rw [decryptClickOutcome]
  simp only [if_neg hkey, if_neg hct, herr]

theorem decrypt_failure_collapses_witness :
    decryptClickOutcome failPrimitives (arrayToBase64 [7]) ['a'] = .failed :=
  decrypt_failure_collapses failPrimitives (arrayToBase64 [7]) ['a']
    .invalidEncoding (by decide) (by decide) (by decide)

/-- C8: the transport encoding is standard unwrapped base64 and
lossless: decoding an encoded byte list returns the bytes exactly, the
encoder output contains no whitespace (no line wrapping), and a
malformed base64 input fails with the distinct `invalidEncoding` kind,
not a KEM or AEAD failure. -/
theorem base64_transport_lossless (a : List Nat) (h : ∀ b ∈ a, b < 256) :
    base64ToArray (arrayToBase64 a) = some a ∧
    (∀ ch ∈ arrayToBase64 a, isB64Space ch = false) ∧
    base64ToArray ['a'] = none ∧
    (∀ P k, decryptMessage P k ['a'] =
      .error CryptoFailure.invalidEncoding) ∧
    CryptoFailure.invalidEncoding ≠ CryptoFailure.kemFailure ∧
    CryptoFailure.invalidEncoding ≠ CryptoFailure.aeadFailure := by
  refine ⟨base64_roundtrip a h, ?_, by decide, ?_, by decide, by decide⟩
  · intro ch hch
    have hf := filter_nospace_arrayToBase64 a h
    have := List.filter_eq_self.mp hf ch hch
    simpa using this
  · intro P k
    have hnone : base64ToArray ['a'] = none := by decide
    simp only [decryptMessage, hnone]

theorem base64_transport_lossless_witness :
    base64ToArray (arrayToBase64 [0, 1, 2, 254, 255]) =
      some [0, 1, 2, 254, 255] :=
  (base64_transport_lossless [0, 1, 2, 254, 255] (by decide)).1

/-- C10: once the AEAD open step succeeds, decryption always returns
the replacement-mode UTF-8 decoding of the recovered bytes — a string,
never an error — and when those bytes are not valid UTF-8 the string
contains U+FFFD. -/
theorem utf8_decode_never_fails (P : Primitives) (keyB64 pkgB64 : List Char)
    (combined privateKey secret decryptedData : List Nat)
    (hpkg : base64ToArray pkgB64 = some combined)
    (hkey : base64ToArray keyB64 = some privateKey)
    (hdec : P.mcelieceDecrypt (unpackageBytes combined).kemCiphertext
        privateKey = .ok secret)
    (hopen : P.aesGcmDecrypt secret (unpackageBytes combined).iv
        (unpackageBytes combined).encryptedData = .ok decryptedData) :
    decryptMessage P keyB64 pkgB64 =
      .ok (String.mk (utf8DecodeLossy decryptedData)) ∧
    (validUtf8 decryptedData = false →
      replChar ∈ utf8DecodeLossy decryptedData) := by
  constructor
  · simp only [decryptMessage, hpkg, hkey, hdec, hopen]
  · exact replChar_mem_of_invalid decryptedData

theorem utf8_decode_never_fails_witness :
    (decryptMessage lenientPrimitives (arrayToBase64 [9])
        (arrayToBase64 (List.replicate 16 0 ++ [255])) =
      .ok (String.mk (utf8DecodeLossy [255])) ∧
    (validUtf8 [255] = false → replChar ∈ utf8DecodeLossy [255])) ∧
    replChar ∈ utf8DecodeLossy [255] := by
  have h := utf8_decode_never_fails lenientPrimitives (arrayToBase64 [9])
    (arrayToBase64 (List.replicate 16 0 ++ [255]))
    (List.replicate 16 0 ++ [255]) [9] (List.replicate 32 0) [255]
    (by decide) (by decide) (by decide) (by decide)
  exact ⟨h, h.2 (by decide)⟩

/-- C7: the nonce carried in the envelope is exactly the fresh 12-byte
random draw made for that call — a function of neither the public key
nor the plaintext — so two calls with different draws produce envelopes
with different nonces even for the same key and plaintext. -/
theorem nonce_from_fresh_draw (P : Primitives) (pkB64 : List Char)
    (m1 m2 : String) (iv1 iv2 pk : List Nat) (res : EncapsResult)
    (s1 s2 : List Nat)
    (hpk : base64ToArray pkB64 = some pk)
    (henc : P.mcelieceEncrypt pk = .ok res)
    (hkclen : res.cyphertext.length < 2147483648)
    (hkcb : ∀ b ∈ res.cyphertext, b < 256)
    (hiv1 : iv1.length = 12) (hiv1b : ∀ b ∈ iv1, b < 256)
    (hiv2 : iv2.length = 12) (hiv2b : ∀ b ∈ iv2, b < 256)
    (hs1 : P.aesGcmEncrypt res.secret iv1 (utf8Encode m1) = .ok s1)
    (hs1b : ∀ b ∈ s1, b < 256)
    (hs2 : P.aesGcmEncrypt res.secret iv2 (utf8Encode m2) = .ok s2)
    (hs2b : ∀ b ∈ s2, b < 256) :
    ∃ ct1 ct2,
      encryptMessage P pkB64 m1 iv1 = .ok ct1 ∧
      encryptMessage P pkB64 m2 iv2 = .ok ct2 ∧
      Option.map UnpackResult.iv (unpackageCiphertext ct1) = some iv1 ∧
      Option.map UnpackResult.iv (unpackageCiphertext ct2) = some iv2 ∧
      (iv1 ≠ iv2 →
        Option.map UnpackResult.iv (unpackageCiphertext ct1) ≠
          Option.map UnpackResult.iv (unpackageCiphertext ct2)) := by
  refine ⟨packageCiphertext res.cyphertext iv1 s1,
    packageCiphertext res.cyphertext iv2 s2, ?_, ?_, ?_, ?_, ?_⟩
  · simp only [encryptMessage, hpk, henc, hs1]
  · simp only [encryptMessage, hpk, henc, hs2]
  · rw [unpackage_package_roundtrip res.cyphertext iv1 s1 hkclen hiv1 hkcb
      hiv1b hs1b]
    rfl
  · rw [unpackage_package_roundtrip res.cyphertext iv2 s2 hkclen hiv2 hkcb
      hiv2b hs2b]
    rfl
  · intro hne
    rw [unpackage_package_roundtrip res.cyphertext iv1 s1 hkclen hiv1 hkcb
      hiv1b hs1b,
      unpackage_package_roundtrip res.cyphertext iv2 s2 hkclen hiv2 hkcb
      hiv2b hs2b]
    intro hc
    exact hne (Option.some.inj hc)

theorem nonce_from_fresh_draw_witness :
    ∃ ct1 ct2,
      encryptMessage toyPrimitives (arrayToBase64 [1, 2, 3]) "m" nonce12 =
        .ok ct1 ∧
      encryptMessage toyPrimitives (arrayToBase64 [1, 2, 3]) "m"
        [12, 11, 10, 9, 8, 7, 6, 5, 4, 3, 2, 1] = .ok ct2 ∧
      Option.map UnpackResult.iv (unpackageCiphertext ct1) = some nonce12 ∧
      Option.map UnpackResult.iv (unpackageCiphertext ct2) =
        some [12, 11, 10, 9, 8, 7, 6, 5, 4, 3, 2, 1] ∧
      (nonce12 ≠ [12, 11, 10, 9, 8, 7, 6, 5, 4, 3, 2, 1] →
        Option.map UnpackResult.iv (unpackageCiphertext ct1) ≠
          Option.map UnpackResult.iv (unpackageCiphertext ct2)) :=
  nonce_from_fresh_draw toyPrimitives (arrayToBase64 [1, 2, 3]) "m" "m"
    nonce12 [12, 11, 10, 9, 8, 7, 6, 5, 4, 3, 2, 1] [1, 2, 3]
    ⟨toyKemCt, toySecret⟩ (utf8Encode "m" ++ [0xAB, 0xCD])
    (utf8Encode "m" ++ [0xAB, 0xCD])
    (by decide) (by decide) (by decide) (by decide) (by decide) (by decide)
    (by decide) (by decide) (by decide) (by decide) (by decide) (by decide)

/-- C1: for a key pair produced together by `generateKeyPair` and any
plaintext (the empty string included), decrypting an encryption of the
plaintext returns it exactly, given the collaborator contracts: the KEM
decapsulates its own encapsulation to the same shared secret, and the
AEAD opens its own sealing to the same plaintext bytes. -/
theorem encrypt_decrypt_roundtrip (P : Primitives) (m : String)
    (iv : List Nat) (res : EncapsResult) (sealed : List Nat)
    (hpkb : ∀ b ∈ P.mcelieceKeyPair.publicKey, b < 256)
    (hskb : ∀ b ∈ P.mcelieceKeyPair.privateKey, b < 256)
    (henc : P.mcelieceEncrypt P.mcelieceKeyPair.publicKey = .ok res)
    (hkclen : res.cyphertext.length < 2147483648)
    (hkcb : ∀ b ∈ res.cyphertext, b < 256)
    (hivlen : iv.length = 12) (hivb : ∀ b ∈ iv, b < 256)
    (hseal : P.aesGcmEncrypt res.secret iv (utf8Encode m) = .ok sealed)
    (hsealb : ∀ b ∈ sealed, b < 256)
    (hdecaps : P.mcelieceDecrypt res.cyphertext P.mcelieceKeyPair.privateKey =
      .ok res.secret)
    (hopen : P.aesGcmDecrypt res.secret iv sealed = .ok (utf8Encode m)) :
    ∃ ct, encryptMessage P (generateKeyPair P).publicKey m iv = .ok ct ∧
      decryptMessage P (generateKeyPair P).privateKey ct = .ok m := by
  refine ⟨packageCiphertext res.cyphertext iv sealed, ?_, ?_⟩
  · simp only [encryptMessage, generateKeyPair, base64_roundtrip _ hpkb,
      henc, hseal]
  · have hcombined : base64ToArray (packageCiphertext res.cyphertext iv sealed) =
        some (packageBytes res.cyphertext iv sealed) := by
      rw [packageCiphertext]
      exact base64_roundtrip _
        (packageBytes_mem_lt _ _ _ hivlen hkcb hivb hsealb)
    have hux : unpackageBytes (packageBytes res.cyphertext iv sealed) =
        ⟨res.cyphertext, iv, sealed⟩ :=
      unpackageBytes_packageBytes _ _ _ hkclen hivlen
    simp only [decryptMessage, generateKeyPair, hcombined,
      base64_roundtrip _ hskb, hux, hdecaps, hopen, utf8_roundtrip]

theorem encrypt_decrypt_roundtrip_witness :
    ∃ ct,
      encryptMessage toyPrimitives (generateKeyPair toyPrimitives).publicKey
        "héllo✓" nonce12 = .ok ct ∧
      decryptMessage toyPrimitives (generateKeyPair toyPrimitives).privateKey
        ct = .ok "héllo✓" :=
  encrypt_decrypt_roundtrip toyPrimitives "héllo✓" nonce12
    ⟨toyKemCt, toySecret⟩ (utf8Encode "héllo✓" ++ [0xAB, 0xCD])
    (by decide) (by decide) (by decide) (by decide) (by decide) (by decide)
    (by decide) (by decide) (by decide) (by decide) (by decide)
